import Mathlib

/-!
Verification development for the UnoSynth MIDI-to-stereo scheduling engine.

The definitions below are a shallow embedding of the engine duplicated in
`arduino_synth_gui_v2.py` (class `ArduinoStereoMidiPlayer`) and
`stereo_midi_player.py` (class `ArduinoStereoPlayer`):

* MIDI note extraction with a running tempo (`extractStep` / `extractNotes`),
* temporal grouping with a 50 ms tolerance (`groupLoop` / `groupNotes`),
* the stereo channel-assignment policy (`assignGroupEvents`),
* the playback dispatcher with cooperative cancellation (`runGroups` /
  `playStereoOnce`), and
* the pitch-bend tracker (`applyPitchBend`).

Python floats are modelled by exact rationals `ℚ`; Python's `int(x)`
truncation is `pyOfFloat`; frequencies (`440 * 2^((p-69)/12)`) live in `ℝ`.
-/

namespace UnoSynth

/-- A decoded MIDI message as consumed by the extraction loops.  `delta` is
the relative tick time (`msg.time`); note messages carry pitch, channel and
velocity, `setTempo` carries microseconds per quarter note.  Message kinds the
code ignores are collapsed into `other`. -/
inductive Msg where
  | noteOn (note ch vel : ℕ) (delta : ℕ)
  | noteOff (note ch : ℕ) (delta : ℕ)
  | setTempo (tempo : ℕ) (delta : ℕ)
  | other (delta : ℕ)
deriving DecidableEq

/-- `mido.tick2second(tick, ticks_per_beat, tempo)`:
`tick * (tempo * 1e-6 / ticks_per_beat)` as an exact rational. -/
def tick2second (tick tpb tempo : ℕ) : ℚ :=
  (tick : ℚ) * ((tempo : ℚ) / 1000000 / (tpb : ℚ))

/-- Python's `int(x)` applied to a float: truncation toward zero. -/
def pyOfFloat (q : ℚ) : ℤ :=
  if 0 ≤ q then ⌊q⌋ else -⌊-q⌋

/-- A `(start_time, note, velocity, duration_ms)` tuple as produced by
`ArduinoStereoMidiPlayer._extract_notes`. -/
structure RawNote where
  start : ℚ
  pitch : ℕ
  velocity : ℕ
  durationMs : ℤ
deriving DecidableEq

/-- Pointwise update of the `active_notes` dictionary of the extractor. -/
def updPending (m : ℕ × ℕ → Option (ℚ × ℕ)) (k : ℕ × ℕ) (v : Option (ℚ × ℕ)) :
    ℕ × ℕ → Option (ℚ × ℕ) :=
  fun k' => if k' = k then v else m k'

/-- Loop state of `_extract_notes` while walking one track: the running
absolute tick (`current_time`), the running tempo (`current_tempo`), the
pending `active_notes` dictionary and the notes emitted so far. -/
structure ExtractState where
  tick : ℕ
  tempo : ℕ
  pending : ℕ × ℕ → Option (ℚ × ℕ)
  out : List RawNote

/-- The note-off half of the extractor body (also reached by a `note_on`
with velocity 0): skip channel 9; if a pending entry exists for
`(note, ch)`, emit one `RawNote` with the pending start time and velocity
and duration `int((end - start) * 1000)`, then delete the entry; otherwise
ignore silently. -/
def extractOff (tpb tick : ℕ) (st : ExtractState) (note ch : ℕ) : ExtractState :=
  if ch = 9 then { st with tick := tick }
  else
    match st.pending (note, ch) with
    | none => { st with tick := tick }
    | some (s, v) =>
        let endT := tick2second tick tpb st.tempo
        { st with tick := tick,
                  pending := updPending st.pending (note, ch) none,
                  out := st.out ++ [⟨s, note, v, pyOfFloat ((endT - s) * 1000)⟩] }

/-- One iteration of the message loop of
`ArduinoStereoMidiPlayer._extract_notes`: advance the tick by the delta,
update the running tempo on `set_tempo`, record pending note-ons
(velocity > 0, channel ≠ 9) at the tick-converted time, and match
note-offs via `extractOff`. -/
def extractStep (tpb : ℕ) (st : ExtractState) (m : Msg) : ExtractState :=
  match m with
  | .setTempo t d => { st with tick := st.tick + d, tempo := t }
  | .other d => { st with tick := st.tick + d }
  | .noteOn note ch vel d =>
      let tick := st.tick + d
      if 0 < vel then
        if ch = 9 then { st with tick := tick }
        else
          { st with tick := tick,
                    pending := updPending st.pending (note, ch)
                      (some (tick2second tick tpb st.tempo, vel)) }
      else extractOff tpb tick st note ch
  | .noteOff note ch d => extractOff tpb (st.tick + d) st note ch

/-- Run the extractor over one track: tick and pending map start fresh,
the tempo is carried in from the preceding tracks. -/
def extractTrack (tpb tempo0 : ℕ) (msgs : List Msg) : ExtractState :=
  msgs.foldl (extractStep tpb) ⟨0, tempo0, fun _ => none, []⟩

/-- Concatenate the per-track outputs.  As in the source, `current_tempo`
persists from one track to the next while the tick counter and the pending
map are reset per track. -/
def extractTracks (tpb : ℕ) : List (List Msg) → ℕ → List RawNote
  | [], _ => []
  | tr :: rest, tempo =>
      let st := extractTrack tpb tempo tr
      st.out ++ extractTracks tpb rest st.tempo

/-- `ArduinoStereoMidiPlayer._extract_notes`: all tracks, then the final
stable ascending sort by start time (`sorted(notes, key=lambda x: x[0])`). -/
def extractNotes (tpb : ℕ) (tracks : List (List Msg)) : List RawNote :=
  (extractTracks tpb tracks 500000).insertionSort (fun a b => a.start ≤ b.start)

/-- The `set_tempo` values of a message list, in order. -/
def tempoEvents (msgs : List Msg) : List ℕ :=
  msgs.filterMap fun m =>
    match m with
    | .setTempo t _ => some t
    | _ => none

/-- The `(absolute tick, converted seconds)` pair computed at each processed
note-on event (velocity > 0, channel ≠ 9), exactly as the extractor computes
`time_seconds = mido.tick2second(current_time, ticks_per_beat, current_tempo)`
with the running tempo in effect at that point. -/
def noteOnTimes (tpb : ℕ) : List Msg → ℕ → ℕ → List (ℕ × ℚ)
  | [], _, _ => []
  | m :: rest, tick, tempo =>
      match m with
      | .setTempo t d => noteOnTimes tpb rest (tick + d) t
      | .other d => noteOnTimes tpb rest (tick + d) tempo
      | .noteOff _ _ d => noteOnTimes tpb rest (tick + d) tempo
      | .noteOn _ ch vel d =>
          if 0 < vel ∧ ch ≠ 9 then
            (tick + d, tick2second (tick + d) tpb tempo) :: noteOnTimes tpb rest (tick + d) tempo
          else noteOnTimes tpb rest (tick + d) tempo

/-- The 50 ms grouping tolerance (`time_tolerance = 0.05`). -/
def timeTolerance : ℚ := 5 / 100

/-- The grouping loop of `_assign_stereo_channels`: a note closes the current
group iff the group is non-empty and `|note.start - last_time| > tolerance`;
`last_time` becomes the start of the most recently appended note, and the
closed group is recorded with the current `last_time` as its anchor.  The
source stores only `(note, velocity, duration)` per member; here each member
keeps its whole `RawNote` (the extra `start` field is never read by the
assignment code below, so the behaviour is unchanged). -/
def groupLoop : List RawNote → List RawNote → ℚ → List (ℚ × List RawNote)
  | [], cur, last => if cur.isEmpty then [] else [(last, cur)]
  | n :: rest, cur, last =>
      if ¬cur.isEmpty ∧ timeTolerance < |n.start - last| then
        (last, cur) :: groupLoop rest [n] n.start
      else
        groupLoop rest (cur ++ [n]) n.start

/-- Grouping of near-simultaneous notes, with `last_time` initialised to -1. -/
def groupNotes (notes : List RawNote) : List (ℚ × List RawNote) :=
  groupLoop notes [] (-1)

/-- The anchor times of the produced groups. -/
def anchors (notes : List RawNote) : List ℚ :=
  (groupNotes notes).map Prod.fst

/-- An anchor time viewed as a fresh input note (the grouper only ever reads
the start time, so pitch, velocity and duration are immaterial). -/
def mkAnchorNote (t : ℚ) : RawNote :=
  ⟨t, 0, 0, 0⟩

/-- The stereo mode strings accepted by the players.  Any other string falls
into the `auto` branch of `_assign_channel`; `auto` stands for that default
branch. -/
inductive StereoMode where
  | auto | bassSplit | chord | random | alternate | mono | sync
deriving DecidableEq

/-- A playable event as built by `_assign_stereo_channels` (the
`{'type': ...}` dictionaries). -/
inductive Ev where
  | note (pitch : ℕ) (durationMs : ℤ) (channel : Fin 2) (velocity : ℕ)
  | chord (note1 note2 : ℕ) (durationMs : ℤ) (vel1 vel2 : ℕ)
  | mono (pitch : ℕ) (durationMs : ℤ) (velocity : ℕ)
  | pitchbend (channel : Fin 2) (semitones : ℚ)
deriving DecidableEq

/-- `_assign_channel(note, stereo_mode, bass_threshold)`.  The draw of
`random.randint(0, 1)` in `random` mode is made explicit as the `rnd`
argument; every other mode ignores it. -/
def assignChannel (note : ℕ) (mode : StereoMode) (bass : ℕ) (rnd : Fin 2) : Fin 2 :=
  match mode with
  | .bassSplit => if note < bass then 0 else 1
  | .random => rnd
  | .alternate => if note % 2 = 0 then 0 else 1
  | _ => if note < bass then 0 else 1

/-- The descending-velocity comparison used by
`group_notes.sort(key=lambda x: x[1], reverse=True)`. -/
def velGE (a b : RawNote) : Prop := b.velocity ≤ a.velocity

instance : DecidableRel velGE := fun a b => Nat.decLe b.velocity a.velocity

instance : IsTotal RawNote velGE := ⟨fun a b => le_total b.velocity a.velocity⟩

instance : IsTrans RawNote velGE := ⟨fun _ _ _ h1 h2 => le_trans h2 h1⟩

/-- Python's stable `list.sort(key=lambda x: x[1], reverse=True)` on the
members of a group: a stable sort into non-increasing velocity order
(insertion sort keeps equal-velocity members in their original order, as
Python's stable sort does). -/
def sortByVelDesc (l : List RawNote) : List RawNote :=
  l.insertionSort velGE

/-- The chord duration `max(80, int((dur1 + dur2) / 2))`. -/
def chordDuration (d1 d2 : ℤ) : ℤ :=
  max 80 (pyOfFloat (((d1 : ℚ) + (d2 : ℚ)) / 2))

/-- The per-group body of `ArduinoStereoMidiPlayer._assign_stereo_channels`
(the actual-duration variant): one note plays as mono or on an assigned
channel with duration `max(80, duration)`; two notes play as a chord under
mode `chord` and otherwise on the fixed channels 0 and 1; three or more
notes are stably sorted by descending velocity and the two loudest always
form a chord. -/
def assignGroupEvents (mode : StereoMode) (bass : ℕ) (rnd : Fin 2) :
    List RawNote → List Ev
  | [] => []
  | [n] =>
      if mode = .mono ∨ mode = .sync then
        [.mono n.pitch (max 80 n.durationMs) n.velocity]
      else
        [.note n.pitch (max 80 n.durationMs) (assignChannel n.pitch mode bass rnd) n.velocity]
  | [n1, n2] =>
      if mode = .chord then
        [.chord n1.pitch n2.pitch (chordDuration n1.durationMs n2.durationMs) n1.velocity n2.velocity]
      else
        [.note n1.pitch (chordDuration n1.durationMs n2.durationMs) 0 n1.velocity,
         .note n2.pitch (chordDuration n1.durationMs n2.durationMs) 1 n2.velocity]
  | n1 :: n2 :: n3 :: rest =>
      let s := sortByVelDesc (n1 :: n2 :: n3 :: rest)
      match s with
      | m1 :: m2 :: _ =>
          [.chord m1.pitch m2.pitch (chordDuration m1.durationMs m2.durationMs) m1.velocity m2.velocity]
      | _ => []

/-- `_assign_stereo_channels`: group, then map the policy over the groups
(indexed so that `random` mode draws one bit per group), keeping only groups
that produced events. -/
def assignStereoChannels (mode : StereoMode) (bass : ℕ) (rnd : ℕ → Fin 2)
    (notes : List RawNote) : List (ℚ × List Ev) :=
  ((groupNotes notes).enum.map
      (fun p => (p.2.1, assignGroupEvents mode bass (rnd p.1) p.2.2))).filter
    (fun q => ¬q.2.isEmpty)

/-- `midi_to_frequency`: `440.0 * (2.0 ** ((midi_note - 69) / 12.0))`,
accepting fractional pitches for bends. -/
noncomputable def midiToFrequency (p : ℚ) : ℝ :=
  440 * (2 : ℝ) ^ (((p : ℝ) - 69) / 12)

/-- A textual command written to the serial sink, with its comma-separated
fields.  `freq`/`mono`/`bend`/`stop` are the GUI player's commands
(`FREQ,<hz>,<ms>,<ch>` / `MONO,<pitch>,<ms>` / `BEND,<ch>,<hz>,<glide>` /
`STOP`); `noteCmd`/`chordCmd` are the CLI stereo player's
`NOTE,<pitch>,<ms>,<ch>` and `CHORD,<n1>,<n2>,<ms>`. -/
inductive Cmd where
  | freq (hz : ℝ) (durationMs : ℤ) (channel : Fin 2)
  | mono (pitch : ℕ) (durationMs : ℤ)
  | bend (channel : Fin 2) (targetHz : ℝ) (glideMs : ℕ)
  | stop
  | noteCmd (pitch : ℕ) (durationMs : ℤ) (channel : Fin 2)
  | chordCmd (note1 note2 : ℕ) (durationMs : ℤ)

/-- Whether a command is a `FREQ` command. -/
def Cmd.isFreq : Cmd → Bool
  | .freq _ _ _ => true
  | _ => false

/-- Whether a command starts a note (`FREQ`, `MONO`, `NOTE` or `CHORD`). -/
def Cmd.isNoteProducing : Cmd → Bool
  | .freq _ _ _ => true
  | .mono _ _ => true
  | .noteCmd _ _ _ => true
  | .chordCmd _ _ _ => true
  | _ => false

/-- The mutable state of `ArduinoStereoMidiPlayer` relevant to the engine:
the connection flag of the serial link, the `playing` flag, and the
`active_notes` dictionary `{0: ..., 1: ...}` read by the pitch-bend code. -/
structure PlayerState where
  connected : Bool
  playing : Bool
  active0 : Option ℚ
  active1 : Option ℚ
deriving DecidableEq

/-- `active_notes[c]`. -/
def PlayerState.getActive (st : PlayerState) (c : Fin 2) : Option ℚ :=
  if c = 0 then st.active0 else st.active1

/-- `active_notes[c] = v`. -/
def PlayerState.setActive (st : PlayerState) (c : Fin 2) (v : Option ℚ) : PlayerState :=
  if c = 0 then { st with active0 := v } else { st with active1 := v }

/-- The fresh player built by `__init__`: both channels inactive. -/
def initPlayer (connected : Bool) : PlayerState :=
  ⟨connected, false, none, none⟩

/-- `send_command`: the write reaches the serial sink only when connected. -/
def sendCommand (st : PlayerState) (c : Cmd) : List Cmd :=
  if st.connected then [c] else []

/-- `play_note_on_channel(midi_note, duration_ms, channel, velocity)`:
sends `FREQ,<hz>,<ms>,<ch>` and records `active_notes[channel] = midi_note`.
The velocity argument is accepted and ignored (no volume control). -/
noncomputable def playNoteOnChannel (st : PlayerState) (p : ℕ) (d : ℤ) (c : Fin 2)
    (_vel : ℕ) : PlayerState × List Cmd :=
  (st.setActive c (some (p : ℚ)), sendCommand st (.freq (midiToFrequency p) d c))

/-- `play_chord(note1, note2, duration_ms, vel1, vel2)`: two sequential
`FREQ` commands, channel 0 then channel 1, same duration; `active_notes`
is not touched. -/
noncomputable def playChord (st : PlayerState) (n1 n2 : ℕ) (d : ℤ)
    (_v1 _v2 : ℕ) : PlayerState × List Cmd :=
  (st, sendCommand st (.freq (midiToFrequency n1) d 0) ++
        sendCommand st (.freq (midiToFrequency n2) d 1))

/-- `play_mono_note(midi_note, duration_ms, velocity)`: one `MONO` command;
`active_notes` is not touched. -/
def playMonoNote (st : PlayerState) (p : ℕ) (d : ℤ) (_vel : ℕ) :
    PlayerState × List Cmd :=
  (st, sendCommand st (.mono p d))

/-- `apply_pitch_bend(channel, semitones)`: a no-op when no note is active
on the channel; otherwise one `BEND` command towards
`midi_to_frequency(active + semitones)` with the fixed 200 ms glide. -/
noncomputable def applyPitchBend (st : PlayerState) (c : Fin 2) (semis : ℚ) :
    PlayerState × List Cmd :=
  match st.getActive c with
  | none => (st, [])
  | some base => (st, sendCommand st (.bend c (midiToFrequency (base + semis)) 200))

/-- `stop()`: clear the `playing` flag and send `STOP` (when connected). -/
def stopPlayer (st : PlayerState) : PlayerState × List Cmd :=
  ({ st with playing := false }, sendCommand st .stop)

/-- Dispatch of one playable event inside `_play_stereo_once`. -/
noncomputable def dispatchEvent (st : PlayerState) (e : Ev) : PlayerState × List Cmd :=
  match e with
  | .note p d c v => playNoteOnChannel st p d c v
  | .chord n1 n2 d v1 v2 => playChord st n1 n2 d v1 v2
  | .mono p d v => playMonoNote st p d v
  | .pitchbend c s => applyPitchBend st c s

/-- Observable outcome of one `_play_stereo_once` pass: the final player
state, the total number of reads of the `playing` flag, the sink commands
(each tagged with the index of the flag read that authorised it), and the
sequence of emitted progress values. -/
structure RunResult where
  player : PlayerState
  checks : ℕ
  out : List (ℕ × Cmd)
  progs : List ℕ

/-- The inner event loop: before each event the `playing` flag is read once.
`stop()` running concurrently is modelled by the read index: read number `k`
returns `true` iff `k < stopAt` (the flag is set once and never unset during
a pass, so the reads are true then false). -/
noncomputable def runEvents (stopAt : ℕ) : List Ev → PlayerState → ℕ →
    PlayerState × ℕ × List (ℕ × Cmd)
  | [], st, k => (st, k, [])
  | e :: rest, st, k =>
      if k < stopAt then
        let pr := dispatchEvent st e
        let r := runEvents stopAt rest pr.1 (k + 1)
        (r.1, r.2.1, pr.2.map (fun c => (k, c)) ++ r.2.2)
      else (st, k + 1, [])

/-- The outer group loop: before each group the `playing` flag is read once;
after a group's events, progress `int((i / total) * 100)` is emitted.  The
pacing sleep has no observable effect on the sink and is not modelled. -/
noncomputable def runGroups (stopAt total : ℕ) : List (ℚ × List Ev) → PlayerState →
    ℕ → ℕ → RunResult
  | [], st, k, _ => ⟨st, k, [], []⟩
  | (_, evs) :: rest, st, k, i =>
      if k < stopAt then
        let r := runEvents stopAt evs st (k + 1)
        let rr := runGroups stopAt total rest r.1 r.2.1 (i + 1)
        ⟨rr.player, rr.checks, r.2.2 ++ rr.out, i * 100 / total :: rr.progs⟩
      else ⟨st, k + 1, [], []⟩

/-- One `_play_stereo_once` pass over an already-assigned event list: run the
groups, then clear `playing` and emit the final progress value 0. -/
noncomputable def playStereoOnce (stopAt : ℕ) (groups : List (ℚ × List Ev))
    (st : PlayerState) : RunResult :=
  let r := runGroups stopAt groups.length groups st 0 0
  ⟨{ r.player with playing := false }, r.checks, r.out, r.progs ++ [0]⟩

/-- The CLI `ArduinoStereoPlayer`'s link state. -/
structure CliState where
  connected : Bool
deriving DecidableEq

/-- CLI `send_command`: writes only when connected. -/
def cliSend (st : CliState) (c : Cmd) : List Cmd :=
  if st.connected then [c] else []

/-- CLI `play_note_on_channel(midi_note, duration_ms, channel)`: one
`NOTE,<pitch>,<ms>,<ch>` command. -/
def cliPlayNoteOnChannel (st : CliState) (p : ℕ) (d : ℤ) (c : Fin 2) : List Cmd :=
  cliSend st (.noteCmd p d c)

/-- CLI `play_chord(note1, note2, duration_ms)`: one single
`CHORD,<n1>,<n2>,<ms>` command. -/
def cliPlayChord (st : CliState) (n1 n2 : ℕ) (d : ℤ) : List Cmd :=
  cliSend st (.chordCmd n1 n2 d)

/-! ## Theorems -/

theorem getActive_setActive (st : PlayerState) (c : Fin 2) (v : Option ℚ) :
    (st.setActive c v).getActive c = v := by
  unfold PlayerState.setActive PlayerState.getActive
  by_cases h : c = 0 <;> simp [h]

/-- C4 counterexample: dispatching a Mono event for pitch 60 on a fresh
player leaves `activeNote` on both channels unset, contradicting the claim
that any Mono dispatch records the pitch. -/
theorem c4_counterexample :
    (playMonoNote (initPlayer true) 60 500 100).1.getActive 0 = none ∧
    (playMonoNote (initPlayer true) 60 500 100).1.getActive 1 = none ∧
    (none : Option ℚ) ≠ some (60 : ℚ) := by
  refine ⟨rfl, rfl, by simp⟩

/-- C4 amended: after dispatching a Note event on channel `c` with pitch `p`
the tracker records `activeNote[c] = p`; dispatching a Mono event leaves the
player state (in particular `activeNote`) completely unchanged. -/
theorem c4_active_note_tracking (st : PlayerState) (p : ℕ) (d : ℤ) (c : Fin 2)
    (v : ℕ) :
    (playNoteOnChannel st p d c v).1.getActive c = some (p : ℚ) ∧
    (playMonoNote st p d v).1 = st :=
  ⟨getActive_setActive st c (some (p : ℚ)), rfl⟩

/-- C5 counterexample: play pitch 60 on channel 0, then `stop()`; the active
note on channel 0 is still recorded and a subsequent bend request emits a
command, contradicting the claim that stop resets every channel's
`activeNote` so that later bends emit nothing. -/
theorem c5_counterexample :
    (stopPlayer (playNoteOnChannel (initPlayer true) 60 500 0 100).1).1.getActive 0
        = some ((60 : ℕ) : ℚ) ∧
    some ((60 : ℕ) : ℚ) ≠ (none : Option ℚ) ∧
    (applyPitchBend (stopPlayer (playNoteOnChannel (initPlayer true) 60 500 0 100).1).1
        0 2).2 ≠ [] := by
  refine ⟨rfl, by simp, ?_⟩
  intro h
  simp [applyPitchBend, stopPlayer, playNoteOnChannel, initPlayer,
    PlayerState.setActive, PlayerState.getActive, sendCommand] at h

/-- C5 amended: `stop()` only clears the `playing` flag (and sends `STOP`);
it leaves `activeNote` on both channels unchanged.  The channels are unset
only as initialised by the constructor. -/
theorem c5_stop_keeps_active_notes (st : PlayerState) (c : Fin 2) (b : Bool) :
    (stopPlayer st).1.getActive c = st.getActive c ∧
    (stopPlayer st).1.playing = false ∧
    (initPlayer b).getActive c = none := by
  unfold stopPlayer initPlayer PlayerState.getActive
  by_cases h : c = 0 <;> simp [h, sendCommand]

/-- C6 counterexample: the CLI stereo player (`stereo_midi_player.py`)
dispatches a single-channel note as `NOTE,<pitch>,<ms>,<ch>` — not as a
`FREQ` command — and a chord as one single `CHORD` command rather than two
sequential `FREQ` commands. -/
theorem c6_counterexample :
    cliPlayNoteOnChannel ⟨true⟩ 69 500 0 = [Cmd.noteCmd 69 500 0] ∧
    (Cmd.noteCmd 69 500 0).isFreq = false ∧
    cliPlayChord ⟨true⟩ 60 64 500 = [Cmd.chordCmd 60 64 500] ∧
    (Cmd.chordCmd 60 64 500).isFreq = false :=
  ⟨rfl, rfl, rfl, rfl⟩

/-- C6 amended: in the GUI player a dispatched Note event sends exactly the
single command `FREQ,<hz>,<ms>,<ch>` with `hz = 440·2^((p-69)/12)`, and a
Chord sends two sequential `FREQ` commands, channel 0 then channel 1, with
the same duration; the CLI stereo player instead sends `NOTE,<pitch>,<ms>,<ch>`
and one `CHORD,<n1>,<n2>,<ms>` command. -/
theorem c6_command_encoding (st : PlayerState) (cst : CliState) (p n1 n2 : ℕ)
    (d : ℤ) (c : Fin 2) (v v1 v2 : ℕ) :
    (playNoteOnChannel st p d c v).2
        = (if st.connected then [Cmd.freq (midiToFrequency p) d c] else []) ∧
    midiToFrequency p = 440 * (2 : ℝ) ^ ((((p : ℚ) : ℝ) - 69) / 12) ∧
    (playChord st n1 n2 d v1 v2).2
        = (if st.connected then
            [Cmd.freq (midiToFrequency n1) d 0, Cmd.freq (midiToFrequency n2) d 1]
          else []) ∧
    cliPlayNoteOnChannel cst p d c
        = (if cst.connected then [Cmd.noteCmd p d c] else []) ∧
    cliPlayChord cst n1 n2 d
        = (if cst.connected then [Cmd.chordCmd n1 n2 d] else []) := by
  refine ⟨rfl, rfl, ?_, rfl, rfl⟩
  unfold playChord sendCommand
  by_cases h : st.connected <;> simp [h]

/-- C8: a bend request on a channel with no active note is a no-op with zero
sink writes; with an active note `base` it sends exactly one
`BEND,<ch>,<hz>,200` command towards `440·2^((base+semis-69)/12)` and leaves
the player state — in particular `activeNote` — unchanged. -/
theorem c8_pitch_bend (st : PlayerState) (c : Fin 2) (semis : ℚ) :
    (st.getActive c = none → applyPitchBend st c semis = (st, [])) ∧
    (∀ base : ℚ, st.getActive c = some base →
        (applyPitchBend st c semis).2
            = (if st.connected then
                [Cmd.bend c (midiToFrequency (base + semis)) 200]
              else []) ∧
        (applyPitchBend st c semis).1 = st) ∧
    (∀ q : ℚ, midiToFrequency q = 440 * (2 : ℝ) ^ (((q : ℝ) - 69) / 12)) := by
  refine ⟨?_, ?_, fun q => rfl⟩
  · intro h
    unfold applyPitchBend
    rw [h]
  · intro base h
    unfold applyPitchBend sendCommand
    rw [h]
    exact ⟨rfl, rfl⟩

/-- Witness for C8 at concrete states: no active note on channel 0 gives zero
writes; with active note 60, a bend of +1/2 semitone gives exactly the one
`BEND` command and an unchanged state. -/
theorem c8_pitch_bend_witness :
    applyPitchBend ⟨true, false, none, none⟩ 0 2 = (⟨true, false, none, none⟩, []) ∧
    (applyPitchBend ⟨true, true, some 60, none⟩ 0 (1/2)).2
        = (if (PlayerState.mk true true (some 60) none).connected then
            [Cmd.bend 0 (midiToFrequency ((60 : ℚ) + 1/2)) 200]
          else []) ∧
    (applyPitchBend ⟨true, true, some 60, none⟩ 0 (1/2)).1
        = ⟨true, true, some 60, none⟩ := by
  refine ⟨(c8_pitch_bend ⟨true, false, none, none⟩ 0 2).1 rfl, ?_, ?_⟩
  · exact ((c8_pitch_bend ⟨true, true, some 60, none⟩ 0 (1/2)).2.1 60 rfl).1
  · exact ((c8_pitch_bend ⟨true, true, some 60, none⟩ 0 (1/2)).2.1 60 rfl).2

theorem groupLoop_anchor_is_last : ∀ (rest cur : List RawNote) (last : ℚ),
    (cur = [] ∨ ∃ m : RawNote, cur.getLast? = some m ∧ last = m.start) →
    ∀ g ∈ groupLoop rest cur last,
      ∃ m : RawNote, g.2.getLast? = some m ∧ g.1 = m.start := by
  intro rest
  induction rest with
  | nil =>
      intro cur last hinv g hg
      unfold groupLoop at hg
      rcases hinv with h | ⟨m, hm, hl⟩
      · simp [h] at hg
      · have hne : cur.isEmpty = false := by
          cases cur with
          | nil => simp at hm
          | cons a t => rfl
        simp only [hne, Bool.false_eq_true, if_false, List.mem_singleton] at hg
        exact ⟨m, by rw [hg]; exact hm, by rw [hg]; exact hl⟩
  | cons n rest ih =>
      intro cur last hinv g hg
      unfold groupLoop at hg
      by_cases hc : ¬cur.isEmpty = true ∧ timeTolerance < |n.start - last|
      · rw [if_pos hc] at hg
        rcases List.mem_cons.mp hg with rfl | hg'
        · rcases hinv with h | ⟨m, hm, hl⟩
          · rw [h] at hc; simp at hc
          · exact ⟨m, hm, hl⟩
        · exact ih [n] n.start (Or.inr ⟨n, rfl, rfl⟩) g hg'
      · rw [if_neg hc] at hg
        exact ih (cur ++ [n]) n.start (Or.inr ⟨n, List.getLast?_concat cur, rfl⟩) g hg

/-- C3 counterexample: for notes starting at 0 s, 0.04 s and 0.2 s the first
two fall in one group whose recorded anchor is 0.04 — the start of its
*last* member — while the claim says the anchor equals the start of the
group's first member, 0. -/
theorem c3_counterexample :
    groupNotes [⟨0,60,100,100⟩, ⟨4/100,64,90,100⟩, ⟨2/10,65,80,100⟩]
        = [(4/100, [⟨0,60,100,100⟩, ⟨4/100,64,90,100⟩]),
           (2/10, [⟨2/10,65,80,100⟩])] ∧
    ([⟨0,60,100,100⟩, ⟨4/100,64,90,100⟩] : List RawNote).head?.map RawNote.start
        = some 0 ∧
    (4/100 : ℚ) ≠ 0 := by
  refine ⟨?_, rfl, by norm_num⟩
  norm_num [groupNotes, groupLoop, timeTolerance, abs]

/-- C3 amended: every produced EventGroup is nonempty and its anchor time
equals the start time of its *last* member (for singleton groups this
coincides with the first member, but not in general). -/
theorem c3_anchor_is_last_member (notes : List RawNote) (g : ℚ × List RawNote)
    (hg : g ∈ groupNotes notes) :
    ∃ m : RawNote, g.2.getLast? = some m ∧ g.1 = m.start :=
  groupLoop_anchor_is_last notes [] (-1) (Or.inl rfl) g hg

/-- Witness for C3 at a concrete input: the first group produced from the
0 / 0.04 / 0.2 s notes has anchor 0.04, the start of its last member. -/
theorem c3_anchor_witness :
    (4/100, [(⟨0,60,100,100⟩ : RawNote), ⟨4/100,64,90,100⟩])
        ∈ groupNotes [⟨0,60,100,100⟩, ⟨4/100,64,90,100⟩, ⟨2/10,65,80,100⟩] ∧
    ∃ m : RawNote,
      ([(⟨0,60,100,100⟩ : RawNote), ⟨4/100,64,90,100⟩] : List RawNote).getLast?
          = some m ∧
      (4/100 : ℚ) = m.start := by
  have hmem : (4/100, [(⟨0,60,100,100⟩ : RawNote), ⟨4/100,64,90,100⟩])
      ∈ groupNotes [⟨0,60,100,100⟩, ⟨4/100,64,90,100⟩, ⟨2/10,65,80,100⟩] := by
    norm_num [groupNotes, groupLoop, timeTolerance, abs]
  exact ⟨hmem, c3_anchor_is_last_member _ _ hmem⟩

/-- C2 counterexample: the spec's own three-note scenario (velocities 50,
90, 70) under mode `auto`: the code emits one Chord of the two loudest
notes, while the claim says that under modes other than `chord` the group
is treated like the corresponding 2-note group, which yields
`Note(ch=0)` + `Note(ch=1)`. -/
theorem c2_counterexample :
    assignGroupEvents .auto 60 0 [⟨0,60,50,100⟩, ⟨0,64,90,100⟩, ⟨0,67,70,100⟩]
        = [.chord 64 67 100 90 70] ∧
    assignGroupEvents .auto 60 0 [⟨0,64,90,100⟩, ⟨0,67,70,100⟩]
        = [.note 64 100 0 90, .note 67 100 1 70] ∧
    ([Ev.chord 64 67 100 90 70] : List Ev) ≠ [.note 64 100 0 90, .note 67 100 1 70] := by
  refine ⟨?_, ?_, by decide⟩
  · norm_num [assignGroupEvents, sortByVelDesc, List.insertionSort,
      List.orderedInsert, velGE, chordDuration, pyOfFloat]
  · norm_num [assignGroupEvents, chordDuration, pyOfFloat, assignChannel]
    decide

/-- C2 amended: for a group of three or more notes the policy stably sorts
the group by descending velocity (ties keep original order) and — under
*every* mode — emits one Chord of the two loudest notes, i.e. it produces
the output of the corresponding 2-note group under mode `chord`, not under
the current mode. -/
theorem c2_three_notes_always_chord (mode : StereoMode) (bass : ℕ) (rnd : Fin 2)
    (g : List RawNote) (h3 : 3 ≤ g.length) :
    (sortByVelDesc g).Sorted velGE ∧
    (sortByVelDesc g).Perm g ∧
    (∀ m1 m2 t, sortByVelDesc g = m1 :: m2 :: t →
        assignGroupEvents mode bass rnd g
            = [.chord m1.pitch m2.pitch (chordDuration m1.durationMs m2.durationMs)
                m1.velocity m2.velocity] ∧
        assignGroupEvents mode bass rnd g
            = assignGroupEvents .chord bass rnd [m1, m2]) := by
  refine ⟨List.sorted_insertionSort velGE g, List.perm_insertionSort velGE g, ?_⟩
  intro m1 m2 t hs
  match g, h3 with
  | n1 :: n2 :: n3 :: r, _ =>
      constructor
      · simp only [assignGroupEvents, hs]
      · simp only [assignGroupEvents, hs]
        simp

/-- Witness for C2: the concrete 50/90/70-velocity group, whose stable
descending sort is explicit, under mode `auto`. -/
theorem c2_three_notes_witness :
    sortByVelDesc [⟨0,60,50,100⟩, ⟨0,64,90,100⟩, ⟨0,67,70,100⟩]
        = ⟨0,64,90,100⟩ :: ⟨0,67,70,100⟩ :: [⟨0,60,50,100⟩] ∧
    assignGroupEvents .auto 60 0 [⟨0,60,50,100⟩, ⟨0,64,90,100⟩, ⟨0,67,70,100⟩]
        = [.chord 64 67 (chordDuration 100 100) 90 70] ∧
    assignGroupEvents .auto 60 0 [⟨0,60,50,100⟩, ⟨0,64,90,100⟩, ⟨0,67,70,100⟩]
        = assignGroupEvents .chord 60 0 [⟨0,64,90,100⟩, ⟨0,67,70,100⟩] := by
  have hs : sortByVelDesc [⟨0,60,50,100⟩, ⟨0,64,90,100⟩, ⟨0,67,70,100⟩]
      = (⟨0,64,90,100⟩ : RawNote) :: ⟨0,67,70,100⟩ :: [⟨0,60,50,100⟩] := by
    norm_num [sortByVelDesc, List.insertionSort, List.orderedInsert, velGE]
  have h := (c2_three_notes_always_chord .auto 60 0
      [⟨0,60,50,100⟩, ⟨0,64,90,100⟩, ⟨0,67,70,100⟩] (by decide)).2.2
      ⟨0,64,90,100⟩ ⟨0,67,70,100⟩ [⟨0,60,50,100⟩] hs
  exact ⟨hs, h.1, h.2⟩

theorem tick2second_mono {t1 t2 tpb p1 p2 : ℕ} (ht : t1 ≤ t2) (hp : p1 ≤ p2) :
    tick2second t1 tpb p1 ≤ tick2second t2 tpb p2 := by
  unfold tick2second
  have h1 : (t1 : ℚ) ≤ (t2 : ℚ) := by exact_mod_cast ht
  have h2 : ((p1 : ℚ) / 1000000 / (tpb : ℚ)) ≤ ((p2 : ℚ) / 1000000 / (tpb : ℚ)) := by
    have hstep : (p1 : ℚ) / 1000000 ≤ (p2 : ℚ) / 1000000 := by
      apply div_le_div_of_nonneg_right ?_ (by norm_num)
      exact_mod_cast hp
    exact div_le_div_of_nonneg_right hstep (Nat.cast_nonneg tpb)
  have hpos : (0 : ℚ) ≤ (p1 : ℚ) / 1000000 / (tpb : ℚ) := by positivity
  exact mul_le_mul h1 h2 hpos (by positivity)

theorem tempoEvents_cons_noteOn (note ch vel d : ℕ) (rest : List Msg) :
    tempoEvents (.noteOn note ch vel d :: rest) = tempoEvents rest := rfl

theorem tempoEvents_cons_setTempo (t d : ℕ) (rest : List Msg) :
    tempoEvents (.setTempo t d :: rest) = t :: tempoEvents rest := rfl

theorem noteOnTimes_lower (tpb : ℕ) : ∀ (msgs : List Msg) (tick tempo : ℕ),
    List.Chain' (· ≤ ·) (tempo :: tempoEvents msgs) →
    ∀ e ∈ noteOnTimes tpb msgs tick tempo, tick2second tick tpb tempo ≤ e.2 := by
  intro msgs
  induction msgs with
  | nil => intro tick tempo _ e he; simp [noteOnTimes] at he
  | cons m rest ih =>
      intro tick tempo hch e he
      match m with
      | .noteOn note ch vel d =>
          rw [noteOnTimes] at he
          by_cases hcond : 0 < vel ∧ ch ≠ 9
          · rw [if_pos hcond] at he
            rcases List.mem_cons.mp he with rfl | he'
            · exact tick2second_mono (Nat.le_add_right tick d) le_rfl
            · exact le_trans (tick2second_mono (Nat.le_add_right tick d) le_rfl)
                (ih (tick + d) tempo hch e he')
          · rw [if_neg hcond] at he
            exact le_trans (tick2second_mono (Nat.le_add_right tick d) le_rfl)
              (ih (tick + d) tempo hch e he)
      | .noteOff note ch d =>
          rw [noteOnTimes] at he
          exact le_trans (tick2second_mono (Nat.le_add_right tick d) le_rfl)
            (ih (tick + d) tempo hch e he)
      | .other d =>
          rw [noteOnTimes] at he
          exact le_trans (tick2second_mono (Nat.le_add_right tick d) le_rfl)
            (ih (tick + d) tempo hch e he)
      | .setTempo t d =>
          rw [noteOnTimes] at he
          rw [tempoEvents_cons_setTempo, List.chain'_cons] at hch
          exact le_trans (tick2second_mono (Nat.le_add_right tick d) hch.1)
            (ih (tick + d) t hch.2 e he)

theorem noteOnTimes_seconds_mono (tpb : ℕ) : ∀ (msgs : List Msg) (tick tempo : ℕ),
    List.Chain' (· ≤ ·) (tempo :: tempoEvents msgs) →
    List.Pairwise (fun a b => a.2 ≤ b.2) (noteOnTimes tpb msgs tick tempo) := by
  intro msgs
  induction msgs with
  | nil => intro tick tempo _; simp [noteOnTimes]
  | cons m rest ih =>
      intro tick tempo hch
      match m with
      | .noteOn note ch vel d =>
          rw [noteOnTimes]
          by_cases hcond : 0 < vel ∧ ch ≠ 9
          · rw [if_pos hcond]
            refine List.Pairwise.cons ?_ (ih (tick + d) tempo hch)
            intro e he
            exact noteOnTimes_lower tpb rest (tick + d) tempo hch e he
          · rw [if_neg hcond]
            exact ih (tick + d) tempo hch
      | .noteOff note ch d => rw [noteOnTimes]; exact ih (tick + d) tempo hch
      | .other d => rw [noteOnTimes]; exact ih (tick + d) tempo hch
      | .setTempo t d =>
          rw [noteOnTimes]
          rw [tempoEvents_cons_setTempo, List.chain'_cons] at hch
          exact ih (tick + d) t hch.2

/-- C1 counterexample: with ticks-per-beat 480, a note-on at absolute tick
1000 under the default tempo (500000 µs/quarter) converts to 25/24 s; after
a tempo change to 100000 µs/quarter, a later note-on at absolute tick 1100
converts to 11/48 s < 25/24 s.  The conversion — absolute tick times the
tempo in effect — is not monotonic for all tempo sequences. -/
theorem c1_counterexample :
    noteOnTimes 480 [.noteOn 60 0 100 1000, .setTempo 100000 0, .noteOn 62 0 100 100]
        0 500000
      = [(1000, 25/24), (1100, 11/48)] ∧
    (1000 : ℕ) < 1100 ∧ (11/48 : ℚ) < 25/24 := by
  refine ⟨?_, by norm_num, by norm_num⟩
  norm_num [noteOnTimes, tick2second]

/-- C1 amended: the conversion is monotonic provided the running tempo value
(µs per quarter note) never decreases along the track — in particular for a
constant tempo.  Under that hypothesis, any two processed note-on events
with `tick1 < tick2` satisfy `seconds(tick1) ≤ seconds(tick2)`. -/
theorem c1_monotone_of_tempo_nondecreasing (tpb : ℕ) (msgs : List Msg)
    (tick tempo : ℕ)
    (h : List.Chain' (· ≤ ·) (tempo :: tempoEvents msgs)) :
    List.Pairwise (fun a b => a.1 < b.1 → a.2 ≤ b.2)
      (noteOnTimes tpb msgs tick tempo) := by
  refine (noteOnTimes_seconds_mono tpb msgs tick tempo h).imp ?_
  exact fun hle _ => hle

/-- Witness for C1: a track whose tempo only increases (500000 then 600000
µs/quarter); the recorded conversion times are monotonic. -/
theorem c1_monotone_witness :
    List.Chain' (· ≤ ·)
      (500000 :: tempoEvents
        [.noteOn 60 0 100 480, .setTempo 600000 0, .noteOn 62 0 100 480]) ∧
    List.Pairwise (fun a b => a.1 < b.1 → a.2 ≤ b.2)
      (noteOnTimes 480 [.noteOn 60 0 100 480, .setTempo 600000 0, .noteOn 62 0 100 480]
        0 500000) := by
  have hch : List.Chain' (· ≤ ·)
      (500000 :: tempoEvents
        [Msg.noteOn 60 0 100 480, .setTempo 600000 0, .noteOn 62 0 100 480]) := by
    rw [show tempoEvents
        [Msg.noteOn 60 0 100 480, .setTempo 600000 0, .noteOn 62 0 100 480]
      = [600000] from rfl]
    norm_num [List.chain'_cons, List.chain'_singleton]
  exact ⟨hch, c1_monotone_of_tempo_nondecreasing 480 _ 0 500000 hch⟩

theorem groupLoop_nil_cur (n : RawNote) (rest : List RawNote) (last : ℚ) :
    groupLoop (n :: rest) [] last = groupLoop rest [n] n.start := by
  simp [groupLoop]

theorem groupLoop_anchor_gaps : ∀ (rest cur : List RawNote) (last : ℚ),
    List.Chain' (fun a b => a.start ≤ b.start) rest →
    (cur.isEmpty = true ∨ ∀ r, rest.head? = some r → last ≤ r.start) →
    List.Chain' (fun a b => a + timeTolerance < b)
      ((groupLoop rest cur last).map Prod.fst) ∧
    (cur.isEmpty = false → ∀ t ∈ (groupLoop rest cur last).map Prod.fst, last ≤ t) := by
  intro rest
  induction rest with
  | nil =>
      intro cur last _ _
      cases hc : cur.isEmpty with
      | true => simp [groupLoop, hc]
      | false =>
          refine ⟨?_, ?_⟩ <;> simp [groupLoop, hc]
  | cons n rest ih =>
      intro cur last hch hinv
      rw [List.chain'_cons'] at hch
      by_cases hc : ¬cur.isEmpty = true ∧ timeTolerance < |n.start - last|
      · have hcur : cur.isEmpty = false := by
          rcases Bool.eq_false_or_eq_true cur.isEmpty with h | h
          · exact absurd h hc.1
          · exact h
        have hlast : last ≤ n.start := by
          rcases hinv with h | h
          · rw [hcur] at h; exact absurd h (by simp)
          · exact h n rfl
        have hgap : last + timeTolerance < n.start := by
          have habs : |n.start - last| = n.start - last :=
            abs_of_nonneg (sub_nonneg.mpr hlast)
          have := hc.2
          rw [habs] at this
          linarith
        have hih := ih [n] n.start hch.2
          (Or.inr fun r hr => hch.1 r (by rw [hr]; rfl))
        have hall := hih.2 rfl
        rw [groupLoop, if_pos hc]
        refine ⟨?_, ?_⟩
        · rw [List.map_cons, List.chain'_cons']
          refine ⟨?_, hih.1⟩
          intro b hb
          have hbmem := List.mem_of_mem_head? hb
          exact lt_of_lt_of_le hgap (hall b hbmem)
        · intro _ t ht
          rw [List.map_cons, List.mem_cons] at ht
          rcases ht with rfl | ht'
          · exact le_refl _
          · exact le_trans hlast (hall t ht')
      · have hih := ih (cur ++ [n]) n.start hch.2
          (Or.inr fun r hr => hch.1 r (by rw [hr]; rfl))
        have hne : (cur ++ [n]).isEmpty = false := by
          cases cur <;> rfl
        rw [groupLoop, if_neg hc]
        refine ⟨hih.1, ?_⟩
        intro hcur t ht
        have hlast : last ≤ n.start := by
          rcases hinv with h | h
          · rw [hcur] at h; exact absurd h (by simp)
          · exact h n rfl
        exact le_trans hlast (hih.2 hne t ht)

theorem groupLoop_singletons : ∀ (rest : List RawNote) (c : RawNote),
    List.Chain' (fun a b => a.start + timeTolerance < b.start) (c :: rest) →
    groupLoop rest [c] c.start = (c :: rest).map (fun n => (n.start, [n])) := by
  intro rest
  induction rest with
  | nil => intro c _; simp [groupLoop]
  | cons r rest ih =>
      intro c hc
      rw [List.chain'_cons] at hc
      have habs : timeTolerance < |r.start - c.start| :=
        lt_of_lt_of_le (by linarith [hc.1]) (le_abs_self _)
      rw [groupLoop, if_pos ⟨by simp, habs⟩, ih r hc.2]
      rfl

/-- C9: grouping is idempotent on its own output.  For an ascending input
with non-negative durations, consecutive group anchors are more than the
50 ms tolerance apart, so feeding the anchor times back in as fresh notes
makes every anchor its own group, reproducing the original boundaries. -/
theorem c9_regroup_anchors_idempotent (notes : List RawNote)
    (hasc : List.Chain' (fun a b => a.start ≤ b.start) notes)
    (_hdur : ∀ n ∈ notes, 0 ≤ n.durationMs) :
    groupNotes ((anchors notes).map mkAnchorNote)
      = (anchors notes).map (fun t => (t, [mkAnchorNote t])) := by
  have hgap : List.Chain' (fun a b => a + timeTolerance < b) (anchors notes) :=
    (groupLoop_anchor_gaps notes [] (-1) hasc (Or.inl rfl)).1
  cases h : anchors notes with
  | nil => simp [groupNotes, groupLoop]
  | cons a rest =>
      rw [h] at hgap
      rw [List.map_cons, groupNotes, groupLoop_nil_cur]
      have hchain : List.Chain' (fun x y : RawNote => x.start + timeTolerance < y.start)
          (mkAnchorNote a :: rest.map mkAnchorNote) := by
        rw [← List.map_cons]
        exact (List.chain'_map mkAnchorNote).mpr hgap
      rw [groupLoop_singletons (rest.map mkAnchorNote) (mkAnchorNote a) hchain]
      rw [← List.map_cons, List.map_map]
      rfl

/-- Witness for C9: the 0 / 0.04 / 0.2 s notes produce anchors 0.04 and 0.2;
regrouping those anchors yields one singleton group per anchor. -/
theorem c9_regroup_witness :
    groupNotes ((anchors [⟨0,60,100,100⟩, ⟨4/100,64,90,100⟩, ⟨2/10,65,80,100⟩]).map
        mkAnchorNote)
      = (anchors [⟨0,60,100,100⟩, ⟨4/100,64,90,100⟩, ⟨2/10,65,80,100⟩]).map
          (fun t => (t, [mkAnchorNote t])) := by
  apply c9_regroup_anchors_idempotent
  · norm_num [List.chain'_cons, List.chain'_singleton]
  · intro n hn
    fin_cases hn <;> norm_num

theorem runEvents_tags (stopAt : ℕ) : ∀ (evs : List Ev) (st : PlayerState) (k : ℕ),
    ∀ tc ∈ (runEvents stopAt evs st k).2.2, tc.1 < stopAt := by
  intro evs
  induction evs with
  | nil => intro st k tc htc; simp [runEvents] at htc
  | cons e rest ih =>
      intro st k tc htc
      rw [runEvents] at htc
      by_cases h : k < stopAt
      · rw [if_pos h] at htc
        simp only [List.mem_append, List.mem_map] at htc
        rcases htc with ⟨c, _, rfl⟩ | htc'
        · exact h
        · exact ih _ _ tc htc'
      · rw [if_neg h] at htc
        simp at htc

theorem runGroups_tags (stopAt total : ℕ) :
    ∀ (gs : List (ℚ × List Ev)) (st : PlayerState) (k i : ℕ),
    ∀ tc ∈ (runGroups stopAt total gs st k i).out, tc.1 < stopAt := by
  intro gs
  induction gs with
  | nil => intro st k i tc htc; simp [runGroups] at htc
  | cons g rest ih =>
      intro st k i tc htc
      obtain ⟨t, evs⟩ := g
      rw [runGroups] at htc
      by_cases h : k < stopAt
      · rw [if_pos h] at htc
        simp only [List.mem_append] at htc
        rcases htc with htc' | htc'
        · exact runEvents_tags stopAt evs st (k + 1) tc htc'
        · exact ih _ _ _ tc htc'
      · rw [if_neg h] at htc
        simp at htc

theorem runEvents_checks (stopAt : ℕ) : ∀ (evs : List Ev) (st : PlayerState) (k : ℕ),
    k + evs.length ≤ stopAt → (runEvents stopAt evs st k).2.1 = k + evs.length := by
  intro evs
  induction evs with
  | nil => intro st k _; simp [runEvents]
  | cons e rest ih =>
      intro st k hle
      have h : k < stopAt := by
        simp only [List.length_cons] at hle; omega
      rw [runEvents, if_pos h]
      show (runEvents stopAt rest (dispatchEvent st e).1 (k + 1)).2.1
          = k + (e :: rest).length
      rw [ih _ (k + 1) (by simp only [List.length_cons] at hle ⊢; omega)]
      simp only [List.length_cons]
      omega

theorem runGroups_checks (stopAt total : ℕ) :
    ∀ (gs : List (ℚ × List Ev)) (st : PlayerState) (k i : ℕ),
    k + gs.length + (gs.map (fun g => g.2.length)).sum ≤ stopAt →
    (runGroups stopAt total gs st k i).checks
      = k + gs.length + (gs.map (fun g => g.2.length)).sum := by
  intro gs
  induction gs with
  | nil => intro st k i _; simp [runGroups]
  | cons g rest ih =>
      intro st k i hle
      obtain ⟨t, evs⟩ := g
      simp only [List.length_cons, List.map_cons, List.sum_cons] at hle ⊢
      have h : k < stopAt := by omega
      rw [runGroups, if_pos h]
      show (runGroups stopAt total rest (runEvents stopAt evs st (k + 1)).1
          (runEvents stopAt evs st (k + 1)).2.1 (i + 1)).checks = _
      rw [runEvents_checks stopAt evs st (k + 1) (by omega)]
      rw [ih _ _ (i + 1) (by omega)]
      omega

/-- C7: once `stop()` is observed, the dispatcher sends nothing more.  Every
sink command of a pass carries the index of the flag read that authorised
it, and all of those indices precede the stop point (`stopAt`), so no
`FREQ`/`MONO`/`CHORD`/`BEND` command is dispatched after cancellation;
`stop()` itself sends the single `STOP` command (when the link is
connected) and clears the playing flag; the last reported progress value of
a pass is always 0; and in an uncancelled pass the flag is read exactly
once per group plus once per event inside each group. -/
theorem c7_stop_cancels_dispatch (groups : List (ℚ × List Ev)) (st : PlayerState)
    (stopAt : ℕ) :
    (∀ tc ∈ (playStereoOnce stopAt groups st).out, tc.1 < stopAt) ∧
    (stopPlayer st).2 = (if st.connected then [Cmd.stop] else []) ∧
    (stopPlayer st).1.playing = false ∧
    (playStereoOnce stopAt groups st).progs.getLast? = some 0 ∧
    (groups.length + (groups.map (fun g => g.2.length)).sum ≤ stopAt →
      (playStereoOnce stopAt groups st).checks
        = groups.length + (groups.map (fun g => g.2.length)).sum) := by
  refine ⟨?_, rfl, rfl, ?_, ?_⟩
  · intro tc htc
    exact runGroups_tags stopAt groups.length groups st 0 0 tc htc
  · exact List.getLast?_concat _
  · intro hb
    have h := runGroups_checks stopAt groups.length groups st 0 0 (by omega)
    simpa using h

/-- Witness for C7: a two-group session (one Mono event per group) with the
stop point beyond all four flag reads: the final progress value is 0 and
the flag is read exactly 2 + 2 = 4 times. -/
theorem c7_stop_witness :
    (playStereoOnce 10 [(0, [Ev.mono 60 500 100]), (1, [Ev.mono 62 500 100])]
        (initPlayer true)).progs.getLast? = some 0 ∧
    (playStereoOnce 10 [(0, [Ev.mono 60 500 100]), (1, [Ev.mono 62 500 100])]
        (initPlayer true)).checks = 4 := by
  constructor
  · exact (c7_stop_cancels_dispatch [(0, [Ev.mono 60 500 100]),
      (1, [Ev.mono 62 500 100])] (initPlayer true) 10).2.2.2.1
  · have h := (c7_stop_cancels_dispatch [(0, [Ev.mono 60 500 100]),
      (1, [Ev.mono 62 500 100])] (initPlayer true) 10).2.2.2.2 (by norm_num)
    simpa using h

/-- C10: in the actual-duration extractor a second note-on for the same
`(pitch, channel)` key overwrites the pending entry (and emits nothing);
the next note-off emits exactly one `RawNote` carrying the most recent
note-on's start time and velocity and clears the entry; concretely, the
track on(60,v=100)@0, on(60,v=80)@480, off(60)@960 (480 ticks/beat, default
tempo) yields exactly one note — start 0.5 s, velocity 80, duration 500 ms —
and the earlier onset at 0 s with velocity 100 is never emitted. -/
theorem c10_retrigger_overwrites (tpb : ℕ) :
    (∀ (st : ExtractState) (note ch vel d : ℕ), 0 < vel → ch ≠ 9 →
        (extractStep tpb st (.noteOn note ch vel d)).pending (note, ch)
            = some (tick2second (st.tick + d) tpb st.tempo, vel) ∧
        (extractStep tpb st (.noteOn note ch vel d)).out = st.out) ∧
    (∀ (st : ExtractState) (note ch d : ℕ) (s : ℚ) (v : ℕ), ch ≠ 9 →
        st.pending (note, ch) = some (s, v) →
        (extractStep tpb st (.noteOff note ch d)).out
            = st.out ++ [⟨s, note, v,
                pyOfFloat ((tick2second (st.tick + d) tpb st.tempo - s) * 1000)⟩] ∧
        (extractStep tpb st (.noteOff note ch d)).pending (note, ch) = none) ∧
    extractNotes 480 [[.noteOn 60 0 100 0, .noteOn 60 0 80 480, .noteOff 60 0 480]]
        = [⟨1/2, 60, 80, 500⟩] := by
  refine ⟨?_, ?_, ?_⟩
  · intro st note ch vel d hv hch
    simp only [extractStep]
    rw [if_pos hv, if_neg hch]
    refine ⟨?_, rfl⟩
    simp [updPending]
  · intro st note ch d s v hch hp
    simp only [extractStep, extractOff]
    rw [if_neg hch, hp]
    refine ⟨rfl, ?_⟩
    simp [updPending]
  · norm_num [extractNotes, extractTracks, extractTrack, extractStep, extractOff,
      updPending, tick2second, pyOfFloat, List.insertionSort, List.orderedInsert]

/-- Witness for C10: stepping a second note-on for key (60, 0) over a
pending entry (start 0 s, velocity 100) overwrites it with the new start
and velocity 80 without emitting; stepping the matching note-off emits
exactly that one note and clears the entry. -/
theorem c10_retrigger_witness :
    (extractStep 480 ⟨480, 500000, updPending (fun _ => none) (60, 0) (some (0, 100)), []⟩
        (.noteOn 60 0 80 0)).pending (60, 0)
      = some (tick2second (480 + 0) 480 500000, 80) ∧
    (extractStep 480 ⟨480, 500000, updPending (fun _ => none) (60, 0) (some (0, 100)), []⟩
        (.noteOn 60 0 80 0)).out = [] ∧
    (extractStep 480 ⟨960, 500000, updPending (fun _ => none) (60, 0) (some (1/2, 80)), []⟩
        (.noteOff 60 0 0)).out
      = [] ++ [⟨1/2, 60, 80,
          pyOfFloat ((tick2second (960 + 0) 480 500000 - 1/2) * 1000)⟩] ∧
    (extractStep 480 ⟨960, 500000, updPending (fun _ => none) (60, 0) (some (1/2, 80)), []⟩
        (.noteOff 60 0 0)).pending (60, 0) = none := by
  have h1 := (c10_retrigger_overwrites 480).1
      ⟨480, 500000, updPending (fun _ => none) (60, 0) (some (0, 100)), []⟩
      60 0 80 0 (by norm_num) (by norm_num)
  have h2 := (c10_retrigger_overwrites 480).2.1
      ⟨960, 500000, updPending (fun _ => none) (60, 0) (some (1/2, 80)), []⟩
      60 0 0 (1/2) 80 (by norm_num) (by simp [updPending])
  exact ⟨h1.1, h1.2, h2.1, h2.2⟩

end UnoSynth
